import Mathlib

/-!
Verification of the decoding helpers and decoding loops of the repository
(files `src/greedy_decoding.py` and `src/utils.py`).

Modelling conventions.
The code works on PyTorch tensors; every tensor that appears has batch
size 1, so the batch axis is elided throughout.  A logits row over the
vocabulary is a `List α`, a (time × vocab) logits tensor is a
`List (List α)`, the embedding table (vocab × embedding-dim) is a
`List (List α)`.  Floating point is idealised as an arbitrary linear
ordered field `α`; the transcendental functions `exp` and `log` that
`F.softmax`, `torch.log` and `log_softmax` use are passed as explicit
function parameters so that every definition stays computable, and the
properties of the real exponential that a proof needs (positivity,
strict monotonicity) appear as hypotheses.  The pretrained GPT-2 model
is an opaque external capability; it is modelled as an abstract forward
function (`Model` for the embedding-input variant used by
`decode_with_embeddings`, `IdModel` for the token-id variant used by
`decode_with_argmax`).  `model(past_key_values=p, inputs_embeds=e)` is
`Model.forward p e`, returning the full (time × vocab) logits output
together with the new cached key-value state, of opaque type `σ`.
Python `None` accumulators are modelled by `Option` or by the empty
list, and the uncaught exception raised by `tokenizer.decode(None)` is
modelled by an `Option` result.
-/

namespace GptPlayground

open Filter Topology

/-- Sum of exponentials of a row: the softmax denominator used by
`F.softmax(logits, dim=-1)` on one vocabulary row. -/
def sumExp {α : Type} [LinearOrderedField α] (exp : α → α) (row : List α) : α :=
  (row.map exp).sum

/-- `F.softmax(logits, dim=-1)` applied to one vocabulary row. -/
def softmax {α : Type} [LinearOrderedField α] (exp : α → α) (row : List α) : List α :=
  row.map (fun v => exp v / sumExp exp row)

/-- Entry `k` of `torch.matmul(p, E)` for a row vector `p` and matrix `E`:
the dot product of `p` with column `k` of `E`. -/
def dotCol {α : Type} [LinearOrderedField α] (p : List α) (E : List (List α)) (k : ℕ) : α :=
  (List.zipWith (fun a r => a * r.getD k 0) p E).sum

/-- `torch.matmul(p, E)` for a row vector `p` (length = number of rows of `E`)
and a matrix `E`; the result has one entry per column of `E`. -/
def rowMatMul {α : Type} [LinearOrderedField α] (p : List α) (E : List (List α)) : List α :=
  (List.range (E.headD []).length).map (dotCol p E)

/-- `embed_inputs(embedding, logits, device)` from both source files
(return value only): softmax over the last axis of each row, then the
matrix product of the probability rows with the embedding matrix.
The `print_entropy` diagnostic is modelled by `embed_inputs_flagged`. -/
def embed_inputs {α : Type} [LinearOrderedField α] (exp : α → α) (E : List (List α))
    (X : List (List α)) : List (List α) :=
  X.map (fun row => rowMatMul (softmax exp row) E)

/-- `embed_inputs` together with its `print_entropy` diagnostic: the second
component is what the function prints (the summed entropy
`torch.sum(- probs * torch.log(probs))` when the flag is set, nothing
otherwise), the first component is the returned tensor. -/
def embed_inputs_flagged {α : Type} [LinearOrderedField α] (exp log : α → α)
    (E : List (List α)) (X : List (List α)) (print_entropy : Bool) :
    List (List α) × List α :=
  let probs := X.map (softmax exp)
  (probs.map (fun p => rowMatMul p E),
    if print_entropy then
      [(probs.map (fun p => (p.map (fun q => -(q * log q))).sum)).sum]
    else [])

/-- First index of a maximal entry: the index returned by `torch.topk(·, k=1)`
in `_greedy` and by `torch.argmax` in `decode_with_argmax` (first
occurrence on ties). Helper: the maximum of a list, `none` on `[]`. -/
def maxVal {α : Type} [LinearOrderedField α] : List α → Option α
  | [] => none
  | x :: xs =>
    match maxVal xs with
    | none => some x
    | some m => some (max x m)

/-- First index of a maximal entry of a row (`torch.argmax` / `torch.topk k=1`
on a vector; `0` on the empty row, where torch would raise). -/
def argmaxIdx {α : Type} [LinearOrderedField α] : List α → ℕ
  | [] => 0
  | x :: xs =>
    match maxVal xs with
    | none => 0
    | some m => if m ≤ x then 0 else argmaxIdx xs + 1

/-- `logits.log_softmax(-1)` on one row: each entry minus the log of the
softmax denominator. -/
def log_softmax {α : Type} [LinearOrderedField α] (exp log : α → α) (row : List α) : List α :=
  row.map (fun v => v - log (sumExp exp row))

/-!  `one_hot(tensor, dimension)` (`src/greedy_decoding.py` lines 29-34).
The Python function first unsqueezes the input until it has rank 2, then
builds a `LongTensor(shape[0], shape[1], dimension)` and scatters a `1`
at each observed token index along the new trailing axis.  Torch only
supports ranks 0, 1, 2 here (a rank-3 input makes `scatter_` raise), so
the input is one of three shapes. -/

/-- A token-id tensor of the ranks `one_hot` supports. -/
inductive IdTensor where
  | scalar (x : ℕ)
  | vec (v : List ℕ)
  | mat (rows : List (List ℕ))

/-- The `while len(tensor.shape) < 2: tensor = tensor.unsqueeze(0)` loop:
promote the input to rank 2 by prepending singleton axes. -/
def toMat : IdTensor → List (List ℕ)
  | .scalar x => [[x]]
  | .vec v => [v]
  | .mat rows => rows

/-- One row of the scattered output: a `1` at the observed token index,
`0` elsewhere, along an axis of size `dimension`. -/
def oneHotRow (dimension tok : ℕ) : List ℕ :=
  (List.range dimension).map (fun i => if i = tok then 1 else 0)

/-- `one_hot(tensor, dimension)`: unsqueeze to rank 2, then scatter `1` at
each token index along a new trailing axis of size `dimension`. -/
def one_hot (tensor : IdTensor) (dimension : ℕ) : List (List (List ℕ)) :=
  (toMat tensor).map (fun row => row.map (oneHotRow dimension))

/-- The shape of an `IdTensor` as torch reports it. -/
def inputShape : IdTensor → List ℕ
  | .scalar _ => []
  | .vec v => [v.length]
  | .mat rows => [rows.length, (rows.headD []).length]

/-- The shape of the rank-3 output of `one_hot`. -/
def shape3 (t : List (List (List ℕ))) : List ℕ :=
  [t.length, (t.headD []).length, ((t.headD []).headD []).length]

/-- Pointwise sum of two vectors (spec-side notion used to state that the
matrix product is a weighted sum of rows). -/
def vecAdd {α : Type} [LinearOrderedField α] (u v : List α) : List α :=
  List.zipWith (fun a b => a + b) u v

/-- A row scaled by a coefficient. -/
def scaleRow {α : Type} [LinearOrderedField α] (a : α) (r : List α) : List α :=
  r.map (fun x => a * x)

/-- The weighted sum `Σ_j p_j • E_j` of the rows of `E` (all of length `m`)
with coefficients `p`. -/
def wsum {α : Type} [LinearOrderedField α] (m : ℕ) (p : List α) (E : List (List α)) : List α :=
  (List.zipWith scaleRow p E).foldr vecAdd (List.replicate m 0)

/-- The probability-weighted sum of the embedding table's rows, the
spec's reading of `torch.matmul(probs, embedding.weight)`. -/
def weightedSumRows {α : Type} [LinearOrderedField α] (p : List α) (E : List (List α)) :
    List α :=
  wsum (E.headD []).length p E

/-!  The two decoding loops. -/

/-- The external model as used by `decode_with_embeddings` /
`decode_with_one_hot` / `decode_with_embedding`:
`model(past_key_values=past, inputs_embeds=e)` returns the logits for the
newly processed positions (a time × vocab list, of which the code only
uses the last row) and the updated cached key-value state of opaque
type `σ`. -/
structure Model (α : Type) (σ : Type) where
  forward : Option σ → List (List α) → List (List α) × σ

/-- The external model as used by `decode_with_argmax`:
`model(input_ids=ids)` (no cached state is passed; the `past` argument is
`none` at every call) returns the logits for every position of `ids` and
a new cached state, which the code ignores. -/
structure IdModel (α : Type) (σ : Type) where
  forward : Option σ → List ℕ → List (List α) × σ

/-- `logits[:, -1, :]` with the batch axis elided: the last row of a
(time × vocab) logits output. -/
def lastRow {α : Type} (L : List (List α)) : List α :=
  L.getLastD []

/-- The loop state of `decode_with_embeddings`: the variables `past`,
`inputs_embeds1` and `logits_so_far` (the `None` initials are `none`
and `[]`). -/
structure EmbState (α : Type) (σ : Type) where
  past : Option σ
  inputs_embeds : List (List α)
  logits_so_far : List (List α)

/-- One iteration of the `for i in range(length)` body of
`decode_with_embeddings` (identical to `decode_with_one_hot` in
`src/utils.py`): on the first iteration (`past is None`) the input
embeddings are recomputed as `embed_inputs(E, one_hot / temperature)`;
the model is run, the last-position logits are divided by the
temperature and appended to `logits_so_far`, and the next input
embedding is `embed_inputs(E, logits)` on exactly those logits. -/
def decodeEmbStep {α σ : Type} [LinearOrderedField α] (exp : α → α) (M : Model α σ)
    (E : List (List α)) (input_one_hot1 : List (List α)) (temperature : α)
    (s : EmbState α σ) : EmbState α σ :=
  let inputs_embeds1 :=
    match s.past with
    | none => embed_inputs exp E (input_one_hot1.map (fun r => r.map (fun v => v / temperature)))
    | some _ => s.inputs_embeds
  let outs := M.forward s.past inputs_embeds1
  let logits := (lastRow outs.1).map (fun v => v / temperature)
  { past := some outs.2
    inputs_embeds := embed_inputs exp E [logits]
    logits_so_far := s.logits_so_far ++ [logits] }

/-- `decode_with_embeddings(model, length, input_one_hot1, temperature, device)`
(`src/greedy_decoding.py` lines 51-71; `decode_with_one_hot` in
`src/utils.py` is the same code): run the loop body `length` times from
the all-`None` initial state and return `logits_so_far`. -/
def decode_with_embeddings {α σ : Type} [LinearOrderedField α] (exp : α → α) (M : Model α σ)
    (E : List (List α)) (length : ℕ) (input_one_hot1 : List (List α))
    (temperature : α) : List (List α) :=
  ((decodeEmbStep exp M E input_one_hot1 temperature)^[length]
    { past := none, inputs_embeds := [], logits_so_far := [] }).logits_so_far

/-- One iteration of the `for i in range(length)` body of
`decode_with_argmax`: the model is invoked on the full token-id sequence
so far with no cached state (`forward none ids`), the last-position
logits are appended to `logits_so_far`, and `torch.argmax` of those
logits is appended to the running token-id sequence. -/
def decodeArgStep {α σ : Type} [LinearOrderedField α] (M : IdModel α σ)
    (s : List ℕ × List (List α)) : List ℕ × List (List α) :=
  let outs := M.forward none s.1
  let logits := lastRow outs.1
  (s.1 ++ [argmaxIdx logits], s.2 ++ [logits])

/-- `decode_with_argmax(model, length, input_ids1, device)`
(`src/greedy_decoding.py` lines 74-95; same code in `src/utils.py`):
run the loop body `length` times starting from the prompt ids and the
`None` logits accumulator, and return `logits_so_far`. -/
def decode_with_argmax {α σ : Type} [LinearOrderedField α] (M : IdModel α σ)
    (length : ℕ) (input_ids1 : List ℕ) : List (List α) :=
  ((decodeArgStep M)^[length] (input_ids1, [])).2

/-!  `get_text_from_logits(logits, tokenizer)`. -/

/-- The accumulation loop of `get_text_from_logits`: for each logits row,
`_greedy` picks the top-1 index, the index is appended to the
`output_so_far` accumulator (which starts as `None`), and the row's
`log_softmax` value at that index is added to `logp`. -/
def getTextLoop {α : Type} [LinearOrderedField α] (exp log : α → α) :
    List (List α) → Option (List ℕ) → α → Option (List ℕ) × α
  | [], acc, logp => (acc, logp)
  | row :: rest, acc, logp =>
    let last := argmaxIdx row
    getTextLoop exp log rest (some (acc.getD [] ++ [last]))
      (logp + (log_softmax exp log row).getD last 0)

/-- `get_text_from_logits(logits, tokenizer)` (both source files): run the
accumulation loop, negate the summed log-probability into `nll`, decode
the accumulated token ids with the external detokenizer and replace
embedded newlines by spaces.  When the loop never ran (`logits` has zero
steps) the accumulator is still `None` and `tokenizer.decode(None.tolist())`
raises: modelled as `none`. -/
def get_text_from_logits {α : Type} [LinearOrderedField α] (exp log : α → α)
    (logits : List (List α)) (tokenizer : List ℕ → String) :
    Option (String × α × List ℕ) :=
  match getTextLoop exp log logits none 0 with
  | (none, _) => none
  | (some ids, logp) => some ((tokenizer ids).replace "\n" " ", -logp, ids)

/-!  Step-indexed recurrences for the two decoding loops (spec §4.4, §4.5):
the cached state, logits and inputs produced at each step, written as
explicit recursions to be compared with the imperative loops. -/

/-- The per-step recurrence of soft decoding as spec §4.4 states it:
step 0 scales the one-hot prompt by `1/temperature`, softmax-embeds it
and runs the model with no past; step `i+1` re-embeds exactly the
logits stored at step `i` (no further temperature scaling) and runs the
model with the cached state from step `i`.  Each step stores the
last-position logits divided by the temperature.  The value is the pair
(cached state after the step, logits stored at the step). -/
def softStepSpec {α σ : Type} [LinearOrderedField α] (exp : α → α) (M : Model α σ)
    (E : List (List α)) (oneHot : List (List α)) (τ : α) : ℕ → σ × List α
  | 0 =>
    let e0 := embed_inputs exp E (oneHot.map (fun r => r.map (fun v => v / τ)))
    let outs := M.forward none e0
    (outs.2, (lastRow outs.1).map (fun v => v / τ))
  | i + 1 =>
    let prev := softStepSpec exp M E oneHot τ i
    let outs := M.forward (some prev.1) (embed_inputs exp E [prev.2])
    (outs.2, (lastRow outs.1).map (fun v => v / τ))

/-- The per-step recurrence of arg-max decoding as spec §4.5 states it:
each step runs the model on the full token-id sequence accumulated so
far, with no cached key-value state, and appends the top-1 token of the
last-position logits to the sequence. -/
def argmaxIdsSpec {α σ : Type} [LinearOrderedField α] (M : IdModel α σ)
    (prompt : List ℕ) : ℕ → List ℕ
  | 0 => prompt
  | i + 1 =>
    let ids := argmaxIdsSpec M prompt i
    ids ++ [argmaxIdx (lastRow (M.forward none ids).1)]

/-!  A semantic interpretation of the opaque external model, used to state
the claim that soft decoding with vanishing temperature reproduces
arg-max decoding.  A network `net` maps a full embedded input sequence
to per-position logits.  The cached key-value state of the library model
("past") exists precisely to continue a computation over a prefix, so
its semantics is: past = the embedded sequence processed so far, and a
forward call with past `p` and new inputs `e` behaves like processing
`p ++ e` from scratch.  Calling the model with token ids behaves like
calling it with those ids' embedding-table rows. -/

/-- The embedding-table row of a token id (a true one-hot lookup). -/
def embedRowOfId {α : Type} [LinearOrderedField α] (E : List (List α)) (t : ℕ) : List α :=
  E.getD t []

/-- `tensor.type(torch.FloatTensor)`: cast an integer tensor to the scalar
field. -/
def castRows {α : Type} [LinearOrderedField α] (X : List (List ℕ)) : List (List α) :=
  X.map (fun r => r.map (fun x : ℕ => (x : α)))

/-- The embedding-input model induced by a network: past is the embedded
sequence processed so far, and a call processes past ++ new inputs. -/
def modelOfNet {α : Type} [LinearOrderedField α]
    (net : List (List α) → List (List α)) : Model α (List (List α)) :=
  ⟨fun past embeds =>
    let full := past.getD [] ++ embeds
    (net full, full)⟩

/-- The token-id model induced by the same network: ids are embedded by
table lookup and processed from scratch (no past is ever supplied). -/
def idModelOfNet {α : Type} [LinearOrderedField α]
    (net : List (List α) → List (List α)) (E : List (List α)) : IdModel α Unit :=
  ⟨fun _ ids => (net (ids.map (embedRowOfId E)), Unit.unit)⟩

/-- The embedded input sequence fed to the network at step `i` of soft
decoding (under `modelOfNet`): the softened prompt embedding at step 0,
then one re-embedded stored-logits row appended per step. -/
def softEmb {α : Type} [LinearOrderedField α] (exp : α → α)
    (net : List (List α) → List (List α)) (E oneHot : List (List α)) (τ : α) :
    ℕ → List (List α)
  | 0 => embed_inputs exp E (oneHot.map (fun r => r.map (fun v => v / τ)))
  | i + 1 =>
    let e := softEmb exp net E oneHot τ i
    e ++ [rowMatMul (softmax exp ((lastRow (net e)).map (fun v => v / τ))) E]

/-- The logits stored at step `i` of soft decoding (under `modelOfNet`):
the last-position network output divided by the temperature. -/
def softStored {α : Type} [LinearOrderedField α] (exp : α → α)
    (net : List (List α) → List (List α)) (E oneHot : List (List α)) (τ : α)
    (i : ℕ) : List α :=
  (lastRow (net (softEmb exp net E oneHot τ i))).map (fun v => v / τ)

/-- The raw last-position logits at step `i` of arg-max decoding (under
`idModelOfNet`). -/
def hardRaw {α : Type} [LinearOrderedField α]
    (net : List (List α) → List (List α)) (E : List (List α)) (prompt : List ℕ)
    (i : ℕ) : List α :=
  lastRow (net ((argmaxIdsSpec (idModelOfNet net E) prompt i).map (embedRowOfId E)))

/-- A `1` at index `t` and `0` elsewhere, over the scalar field (the limit of
a softmax row as its temperature vanishes). -/
def indicatorRow {α : Type} [LinearOrderedField α] (n t : ℕ) : List α :=
  (List.range n).map (fun i => if i = t then 1 else 0)

/-- `t` is the strictly unique maximum position of `xs`. -/
def StrictArgmax {α : Type} [LinearOrderedField α] (xs : List α) (t : ℕ) : Prop :=
  t < xs.length ∧ ∀ j, j < xs.length → j ≠ t → xs.getD j 0 < xs.getD t 0

/-- Convergence of a temperature-indexed row to a fixed row as the
temperature tends to `0⁺`: lengths eventually agree and every entry
converges. -/
def TendstoRow (g : ℝ → List ℝ) (L : List ℝ) : Prop :=
  (∀ᶠ τ in 𝓝[>] (0 : ℝ), (g τ).length = L.length) ∧
    ∀ k, Filter.Tendsto (fun τ => (g τ).getD k 0) (𝓝[>] (0 : ℝ)) (𝓝 (L.getD k 0))

/-- Convergence of a temperature-indexed list of rows, row by row. -/
def TendstoMat (G : ℝ → List (List ℝ)) (M : List (List ℝ)) : Prop :=
  (∀ᶠ τ in 𝓝[>] (0 : ℝ), (G τ).length = M.length) ∧
    ∀ k, TendstoRow (fun τ => (G τ).getD k []) (M.getD k [])

/-- Continuity of the network in its input embeddings, in the form the
limit argument needs: the last-position logits of convergent input
sequences converge. -/
def NetContinuous (net : List (List ℝ) → List (List ℝ)) : Prop :=
  ∀ (G : ℝ → List (List ℝ)) (M : List (List ℝ)),
    TendstoMat G M → TendstoRow (fun τ => lastRow (net (G τ))) (lastRow (net M))

/-!  Helper lemmas. -/

/-- One loop iteration of `decode_with_embeddings` grows `logits_so_far`
by exactly one step. -/
theorem decodeEmbStep_logits_length {α σ : Type} [LinearOrderedField α] (exp : α → α)
    (M : Model α σ) (E oh : List (List α)) (τ : α) (s : EmbState α σ) :
    (decodeEmbStep exp M E oh τ s).logits_so_far.length = s.logits_so_far.length + 1 := by
  simp [decodeEmbStep]

/-- After `i` iterations of the `decode_with_embeddings` loop body,
`logits_so_far` has exactly `i` steps. -/
theorem decodeEmb_iterate_length {α σ : Type} [LinearOrderedField α] (exp : α → α)
    (M : Model α σ) (E oh : List (List α)) (τ : α) (i : ℕ) :
    (((decodeEmbStep exp M E oh τ)^[i])
        { past := none, inputs_embeds := [], logits_so_far := [] }).logits_so_far.length = i := by
  induction i with
  | zero => rfl
  | succ k ih =>
    rw [Function.iterate_succ_apply', decodeEmbStep_logits_length, ih]

/-- C1: for every model, temperature and length `n ≥ 1`, soft decoding
returns a logits-so-far sequence with exactly `n` steps along its time
axis, and after each intermediate iteration the accumulated
logits-so-far length equals the number of steps taken so far. -/
theorem soft_decoding_length_invariant {α σ : Type} [LinearOrderedField α] (exp : α → α)
    (M : Model α σ) (E oh : List (List α)) (τ : α) (n : ℕ) (h : 1 ≤ n) :
    (decode_with_embeddings exp M E n oh τ).length = n ∧
      ∀ i, (((decodeEmbStep exp M E oh τ)^[i])
          { past := none, inputs_embeds := [], logits_so_far := [] }).logits_so_far.length = i :=
  ⟨decodeEmb_iterate_length exp M E oh τ n, fun i => decodeEmb_iterate_length exp M E oh τ i⟩

/-- Witness for C1: a concrete two-step run of soft decoding over `ℚ` with a
constant one-token model. -/
theorem soft_decoding_length_invariant_witness :
    (1 ≤ 2) ∧
      ((decode_with_embeddings (α := ℚ) (σ := Unit) (fun x => x)
            ⟨fun _ _ => ([[0]], Unit.unit)⟩ [[1]] 2 [[1]] 1).length = 2 ∧
        ∀ i, (((decodeEmbStep (α := ℚ) (σ := Unit) (fun x => x)
              ⟨fun _ _ => ([[0]], Unit.unit)⟩ [[1]] [[1]] 1)^[i])
            { past := none, inputs_embeds := [], logits_so_far := [] }).logits_so_far.length = i) :=
  ⟨by decide,
    soft_decoding_length_invariant (fun x => x) ⟨fun _ _ => ([[0]], Unit.unit)⟩
      [[1]] [[1]] 1 2 (by decide)⟩

/-- C9: the return value of `embed_inputs` is independent of the
`print_entropy` flag; the flag only changes the printed diagnostic. -/
theorem embed_inputs_independent_of_print_entropy {α : Type} [LinearOrderedField α]
    (exp log : α → α) (E X : List (List α)) :
    (embed_inputs_flagged exp log E X true).1 = (embed_inputs_flagged exp log E X false).1 :=
  rfl

/-- C8: transcript reconstruction is deterministic: two runs of
`get_text_from_logits` on the same stored logits sequence and the same
detokenizer return identical text, negative log-likelihood and token-id
sequence. -/
theorem get_text_from_logits_deterministic {α : Type} [LinearOrderedField α]
    (exp log : α → α) (L1 L2 : List (List α)) (tokenizer : List ℕ → String)
    (h : L1 = L2) :
    get_text_from_logits exp log L1 tokenizer = get_text_from_logits exp log L2 tokenizer := by
  rw [h]

/-- Witness for C8: the two runs coincide on a concrete one-step logits
sequence over `ℚ`. -/
theorem get_text_from_logits_deterministic_witness :
    ([[(1 : ℚ), 2]] = [[(1 : ℚ), 2]]) ∧
      get_text_from_logits (fun x => x) (fun x => x) [[(1 : ℚ), 2]] (fun _ => "t") =
        get_text_from_logits (fun x => x) (fun x => x) [[(1 : ℚ), 2]] (fun _ => "t") :=
  ⟨rfl, get_text_from_logits_deterministic (fun x => x) (fun x => x)
    [[(1 : ℚ), 2]] [[(1 : ℚ), 2]] (fun _ => "t") rfl⟩

/-- Summing a list divided elementwise by a constant is dividing the sum. -/
theorem sum_map_div {α : Type} [LinearOrderedField α] (l : List α) (c : α) :
    (l.map (fun v => v / c)).sum = l.sum / c := by
  induction l with
  | nil => simp
  | cons a t ih => simp [ih, add_div]

/-- The softmax of a non-empty row sums to one whenever `exp` is positive. -/
theorem softmax_sum_one {α : Type} [LinearOrderedField α] (exp : α → α) (row : List α)
    (hexp : ∀ x, 0 < exp x) (hrow : row ≠ []) : (softmax exp row).sum = 1 := by
  have hmapne : row.map exp ≠ [] := by simpa using hrow
  have hS : 0 < sumExp exp row := by
    refine List.sum_pos _ ?_ hmapne
    intro x hx
    obtain ⟨v, _, rfl⟩ := List.mem_map.1 hx
    exact hexp v
  have hrw : softmax exp row = (row.map exp).map (fun v => v / sumExp exp row) := by
    rw [List.map_map]
    rfl
  rw [hrw, sum_map_div]
  exact div_self (ne_of_gt hS)

/-- `wsum` on two conses peels off one scaled row. -/
theorem wsum_cons {α : Type} [LinearOrderedField α] (m : ℕ) (a : α) (p : List α)
    (r : List α) (E : List (List α)) :
    wsum m (a :: p) (r :: E) = vecAdd (scaleRow a r) (wsum m p E) :=
  rfl

/-- The weighted sum of rows of length `m` has length `m`. -/
theorem wsum_length {α : Type} [LinearOrderedField α] (m : ℕ) (p : List α)
    (E : List (List α)) (hE : ∀ r ∈ E, r.length = m) : (wsum m p E).length = m := by
  induction p generalizing E with
  | nil => simp [wsum]
  | cons a p' ih =>
    cases E with
    | nil => simp [wsum]
    | cons r E' =>
      have hr : r.length = m := hE r (List.mem_cons_self r E')
      have hE' : ∀ r' ∈ E', r'.length = m := fun r' h => hE r' (List.mem_cons_of_mem _ h)
      rw [wsum_cons]
      simp [vecAdd, List.length_zipWith, scaleRow, ih E' hE', hr]

/-- Entry `k` of a pointwise vector sum. -/
theorem vecAdd_getD {α : Type} [LinearOrderedField α] (u v : List α) (k : ℕ)
    (hu : k < u.length) (hv : k < v.length) :
    (vecAdd u v).getD k 0 = u.getD k 0 + v.getD k 0 := by
  have hz : k < (vecAdd u v).length := by
    simp only [vecAdd, List.length_zipWith]
    omega
  rw [List.getD_eq_getElem _ _ hz, List.getD_eq_getElem _ _ hu, List.getD_eq_getElem _ _ hv]
  simp [vecAdd]

/-- Entry `k` of a scaled row. -/
theorem scaleRow_getD {α : Type} [LinearOrderedField α] (a : α) (r : List α) (k : ℕ)
    (hk : k < r.length) : (scaleRow a r).getD k 0 = a * r.getD k 0 := by
  have hs : k < (scaleRow a r).length := by simpa [scaleRow] using hk
  rw [List.getD_eq_getElem _ _ hs, List.getD_eq_getElem _ _ hk]
  simp [scaleRow]

/-- Entry `k` of the weighted sum of rows is the dot product of the
coefficients with column `k`. -/
theorem wsum_getD {α : Type} [LinearOrderedField α] (m : ℕ) (p : List α)
    (E : List (List α)) (hE : ∀ r ∈ E, r.length = m) (hlen : p.length = E.length)
    (k : ℕ) (hk : k < m) : (wsum m p E).getD k 0 = dotCol p E k := by
  induction p generalizing E with
  | nil =>
    cases E with
    | nil => simp [wsum, dotCol]
    | cons r E' => simp at hlen
  | cons a p' ih =>
    cases E with
    | nil => simp at hlen
    | cons r E' =>
      have hr : r.length = m := hE r (List.mem_cons_self r E')
      have hE' : ∀ r' ∈ E', r'.length = m := fun r' h => hE r' (List.mem_cons_of_mem _ h)
      have hlen' : p'.length = E'.length := by simpa using hlen
      have hw : (wsum m p' E').length = m := wsum_length m p' E' hE'
      rw [wsum_cons, vecAdd_getD _ _ k (by simpa [scaleRow, hr] using hk) (by omega),
        scaleRow_getD a r k (by omega), ih E' hE' hlen']
      simp [dotCol]

/-- `torch.matmul(p, E)` is the `p`-weighted sum of the rows of `E`. -/
theorem rowMatMul_eq_weightedSumRows {α : Type} [LinearOrderedField α] (p : List α)
    (E : List (List α)) (m : ℕ) (hE : ∀ r ∈ E, r.length = m) (hEne : E ≠ [])
    (hlen : p.length = E.length) : rowMatMul p E = weightedSumRows p E := by
  have hm : (E.headD []).length = m := by
    cases E with
    | nil => exact absurd rfl hEne
    | cons r E' => exact hE r (List.mem_cons_self r E')
  unfold rowMatMul weightedSumRows
  rw [hm]
  apply List.ext_getElem
  · simp [wsum_length m p E hE]
  · intro i h1 h2
    have him : i < m := by simpa using h1
    have hgd := wsum_getD m p E hE hlen i him
    rw [List.getD_eq_getElem _ _ h2] at hgd
    simp only [List.getElem_map, List.getElem_range]
    exact hgd.symm

/-- C2: for every embedding table and logits tensor, the embedding
projection is softmax over the last axis followed by the matrix product
with the table; each softmax row sums to one; and the result row is the
probability-weighted sum of the table's rows. -/
theorem embed_inputs_softmax_weighted {α : Type} [LinearOrderedField α] (exp : α → α)
    (E X : List (List α)) (m : ℕ) (hexp : ∀ x, 0 < exp x)
    (hE : ∀ r ∈ E, r.length = m) (hEne : E ≠ [])
    (hX : ∀ row ∈ X, row.length = E.length) :
    embed_inputs exp E X = X.map (fun row => rowMatMul (softmax exp row) E) ∧
      (∀ row ∈ X, (softmax exp row).sum = 1) ∧
      embed_inputs exp E X = X.map (fun row => weightedSumRows (softmax exp row) E) := by
  refine ⟨rfl, ?_, ?_⟩
  · intro row hrow
    have hrne : row ≠ [] := by
      intro hnil
      have := hX row hrow
      rw [hnil] at this
      simp at this
      exact hEne (List.length_eq_zero.mp this.symm)
    exact softmax_sum_one exp row hexp hrne
  · unfold embed_inputs
    apply List.map_congr_left
    intro row hrow
    refine rowMatMul_eq_weightedSumRows _ _ m hE hEne ?_
    simp [softmax, hX row hrow]

/-- Witness for C2: a concrete two-word vocabulary with constant `exp`. -/
theorem embed_inputs_softmax_weighted_witness :
    (∀ x : ℚ, 0 < (fun _ : ℚ => (1 : ℚ)) x) ∧
      (embed_inputs (fun _ : ℚ => 1) [[2], [4]] [[0, 0]] =
          [[(0 : ℚ), 0]].map (fun row => rowMatMul (softmax (fun _ : ℚ => 1) row) [[2], [4]]) ∧
        (∀ row ∈ [[(0 : ℚ), 0]], (softmax (fun _ : ℚ => 1) row).sum = 1) ∧
        embed_inputs (fun _ : ℚ => 1) [[2], [4]] [[0, 0]] =
          [[(0 : ℚ), 0]].map (fun row => weightedSumRows (softmax (fun _ : ℚ => 1) row) [[2], [4]])) :=
  ⟨fun _ => one_pos,
    embed_inputs_softmax_weighted (fun _ => 1) [[2], [4]] [[0, 0]] 1
      (fun _ => one_pos) (by decide) (by decide) (by decide)⟩

/-- C3 counterexample: on the 1-D token tensor `[1]` with vocabulary size 2,
`one_hot` first unsqueezes to rank 2, so the output shape is `[1, 1, 2]`,
not the input shape with one appended axis (`[1, 2]`). -/
theorem one_hot_shape_counterexample :
    shape3 (one_hot (IdTensor.vec [1]) 2) ≠ inputShape (IdTensor.vec [1]) ++ [2] := by
  decide

/-- C3 (amended): for 2-D token tensors the output shape gains exactly one
trailing axis of size `d` (lower-rank inputs are first unsqueezed to
rank 2, so they also gain leading singleton axes); each position's
indicator row has length `d`, a single `1` at the observed token index
and `0` elsewhere; and on `[[1,2,3]]` with vocabulary size 5 the result
is the stated 1×3×5 tensor. -/
theorem one_hot_amended :
    (∀ (rows : List (List ℕ)) (d b : ℕ), rows ≠ [] → 0 < b →
        (∀ r ∈ rows, r.length = b) →
        shape3 (one_hot (IdTensor.mat rows) d) = [rows.length, b, d]) ∧
    (∀ d tok, tok < d →
        (oneHotRow d tok).length = d ∧
        (oneHotRow d tok).getD tok 0 = 1 ∧
        ∀ i, i < d → i ≠ tok → (oneHotRow d tok).getD i 0 = 0) ∧
    one_hot (IdTensor.mat [[1, 2, 3]]) 5 =
      [[[0, 1, 0, 0, 0], [0, 0, 1, 0, 0], [0, 0, 0, 1, 0]]] := by
  refine ⟨?_, ?_, by decide⟩
  · rintro (_ | ⟨r, rows'⟩) d b hne hb hlen
    · exact absurd rfl hne
    · have hr : r.length = b := hlen r (List.mem_cons_self r rows')
      obtain ⟨x, r', rfl⟩ : ∃ x r', r = x :: r' := by
        cases r with
        | nil => simp at hr; omega
        | cons x r' => exact ⟨x, r', rfl⟩
      simp [one_hot, toMat, shape3, oneHotRow]
      simpa using hr
  · intro d tok htok
    refine ⟨by simp [oneHotRow], ?_, ?_⟩
    · simp [oneHotRow, List.getD, List.getElem?_map, List.getElem?_range, htok]
    · intro i hi hne
      simp [oneHotRow, List.getD, List.getElem?_map, List.getElem?_range, hi, hne]

/-- Witness for C3's amended theorem: concrete instantiations of its
universally quantified parts. -/
theorem one_hot_amended_witness :
    (([[0], [4]] : List (List ℕ)) ≠ [] ∧ 0 < 1 ∧
        shape3 (one_hot (IdTensor.mat [[0], [4]]) 5) = [2, 1, 5]) ∧
      (1 < 3 ∧ (oneHotRow 3 1).getD 1 0 = 1) :=
  ⟨⟨by decide, by decide,
      one_hot_amended.1 [[0], [4]] 5 1 (by decide) (by decide) (by decide)⟩,
    ⟨by decide, (one_hot_amended.2.1 3 1 (by decide)).2.1⟩⟩

/-- After `i + 1` iterations, the soft-decoding loop state is exactly the
state of the step recurrence: the past and next input embedding come
from step `i`, and `logits_so_far` lists the stored logits of steps
`0 … i`. -/
theorem decodeEmb_iterate_spec {α σ : Type} [LinearOrderedField α] (exp : α → α)
    (M : Model α σ) (E oneHot : List (List α)) (τ : α) (i : ℕ) :
    ((decodeEmbStep exp M E oneHot τ)^[i + 1])
        { past := none, inputs_embeds := [], logits_so_far := [] } =
      { past := some (softStepSpec exp M E oneHot τ i).1,
        inputs_embeds := embed_inputs exp E [(softStepSpec exp M E oneHot τ i).2],
        logits_so_far :=
          (List.range (i + 1)).map (fun j => (softStepSpec exp M E oneHot τ j).2) } := by
  induction i with
  | zero =>
    simp [Function.iterate_one, decodeEmbStep, softStepSpec, List.range_succ]
  | succ k ih =>
    rw [Function.iterate_succ_apply', ih]
    simp [decodeEmbStep, softStepSpec, List.range_succ]

/-- The returned logits of `decode_with_embeddings` are the stored logits of
the `softStepSpec` recurrence, step for step. -/
theorem decodeEmb_trace {α σ : Type} [LinearOrderedField α] (exp : α → α)
    (M : Model α σ) (E oneHot : List (List α)) (τ : α) (n : ℕ) :
    decode_with_embeddings exp M E n oneHot τ =
      (List.range n).map (fun i => (softStepSpec exp M E oneHot τ i).2) := by
  cases n with
  | zero => rfl
  | succ k =>
    unfold decode_with_embeddings
    rw [decodeEmb_iterate_spec]

/-- C4: soft decoding divides the prompt representation by the temperature
before the softmax-based projection at step 0; the logits stored at
every step are the last-position model logits divided by the
temperature; and the next step's embedded input is the projection of
exactly those stored logits with no further temperature scaling — i.e.
the loop computes the `softStepSpec` recurrence step for step. -/
theorem soft_decoding_temperature_flow {α σ : Type} [LinearOrderedField α] (exp : α → α)
    (M : Model α σ) (E oneHot : List (List α)) (τ : α) (n : ℕ) :
    decode_with_embeddings exp M E n oneHot τ =
      (List.range n).map (fun i => (softStepSpec exp M E oneHot τ i).2) :=
  decodeEmb_trace exp M E oneHot τ n

/-- After `i` iterations, the arg-max loop state is the step recurrence's
token sequence and the list of last-position logits of steps `0 … i-1`. -/
theorem decodeArg_iterate_spec {α σ : Type} [LinearOrderedField α] (M : IdModel α σ)
    (prompt : List ℕ) (i : ℕ) :
    ((decodeArgStep M)^[i]) (prompt, []) =
      (argmaxIdsSpec M prompt i,
        (List.range i).map
          (fun j => lastRow (M.forward none (argmaxIdsSpec M prompt j)).1)) := by
  induction i with
  | zero => rfl
  | succ k ih =>
    rw [Function.iterate_succ_apply', ih]
    simp [decodeArgStep, argmaxIdsSpec, List.range_succ]

/-- C5: every step of arg-max decoding invokes the model on the full
token-id sequence accumulated so far with no cached key-value state
(`forward none`), appends the last-position logits to logits-so-far,
and appends the top-1 token to the running sequence; after `n` steps the
returned value is the list of the `n` stored last-position logits. -/
theorem argmax_decoding_trace {α σ : Type} [LinearOrderedField α] (M : IdModel α σ)
    (prompt : List ℕ) (n : ℕ) :
    decode_with_argmax M n prompt =
        (List.range n).map
          (fun i => lastRow (M.forward none (argmaxIdsSpec M prompt i)).1) ∧
      ((decodeArgStep M)^[n] (prompt, [])).1 = argmaxIdsSpec M prompt n ∧
      ∀ i, argmaxIdsSpec M prompt (i + 1) =
        argmaxIdsSpec M prompt i ++
          [argmaxIdx (lastRow (M.forward none (argmaxIdsSpec M prompt i)).1)] := by
  refine ⟨?_, ?_, fun i => rfl⟩
  · unfold decode_with_argmax
    rw [decodeArg_iterate_spec]
  · rw [decodeArg_iterate_spec]

/-!  Closed form of `get_text_from_logits`. -/

/-- Running the accumulation loop from a non-`None` accumulator appends the
top-1 token of every row and adds every row's `log_softmax` value at its
top-1 index. -/
theorem getTextLoop_append {α : Type} [LinearOrderedField α] (exp log : α → α)
    (L : List (List α)) (acc : List ℕ) (lp : α) :
    getTextLoop exp log L (some acc) lp =
      (some (acc ++ L.map argmaxIdx),
        lp + (L.map (fun row => (log_softmax exp log row).getD (argmaxIdx row) 0)).sum) := by
  induction L generalizing acc lp with
  | nil => simp [getTextLoop]
  | cons row rest ih =>
    rw [getTextLoop]
    simp only [Option.getD_some]
    rw [ih]
    simp [add_assoc]

/-- Closed form of `get_text_from_logits` on a non-empty logits sequence:
the top-1 token of every step, the negated sum of the per-step
`log_softmax` values at those tokens, and the detokenized text with
newlines replaced by spaces. -/
theorem get_text_closed_form {α : Type} [LinearOrderedField α] (exp log : α → α)
    (L : List (List α)) (tokenizer : List ℕ → String) (h : L ≠ []) :
    get_text_from_logits exp log L tokenizer =
      some ((tokenizer (L.map argmaxIdx)).replace "\n" " ",
        -((L.map (fun row => (log_softmax exp log row).getD (argmaxIdx row) 0)).sum),
        L.map argmaxIdx) := by
  cases L with
  | nil => exact absurd rfl h
  | cons row rest =>
    unfold get_text_from_logits
    rw [getTextLoop]
    simp only [Option.getD_none, List.nil_append]
    rw [getTextLoop_append]
    simp

/-- C6: for every non-empty logits sequence and detokenizer, transcript
reconstruction picks the top-1 token at every step, negates the summed
log-probabilities of those tokens into the total negative
log-likelihood, concatenates the selected token ids, decodes them with
newlines replaced by spaces, and returns the text, the negative
log-likelihood and the raw token-id sequence. -/
theorem get_text_from_logits_spec {α : Type} [LinearOrderedField α] (exp log : α → α)
    (L : List (List α)) (tokenizer : List ℕ → String) (h : L ≠ []) :
    get_text_from_logits exp log L tokenizer =
      some ((tokenizer (L.map argmaxIdx)).replace "\n" " ",
        -((L.map (fun row => (log_softmax exp log row).getD (argmaxIdx row) 0)).sum),
        L.map argmaxIdx) :=
  get_text_closed_form exp log L tokenizer h

/-- Witness for C6: the closed form on a concrete two-step logits sequence
over `ℚ`. -/
theorem get_text_from_logits_spec_witness :
    (([[(1 : ℚ), 2], [3, 0]] : List (List ℚ)) ≠ []) ∧
      get_text_from_logits (fun x => x) (fun x => x) [[(1 : ℚ), 2], [3, 0]]
          (fun _ => "a\nb") =
        some (((fun _ : List ℕ => "a\nb") ([[(1 : ℚ), 2], [3, 0]].map argmaxIdx)).replace
            "\n" " ",
          -((([[(1 : ℚ), 2], [3, 0]] : List (List ℚ)).map
              (fun row =>
                (log_softmax (fun x => x) (fun x => x) row).getD (argmaxIdx row) 0)).sum),
          ([[(1 : ℚ), 2], [3, 0]] : List (List ℚ)).map argmaxIdx) :=
  ⟨by decide,
    get_text_from_logits_spec (fun x => x) (fun x => x) [[(1 : ℚ), 2], [3, 0]]
      (fun _ => "a\nb") (by decide)⟩

/-- C10: transcript reconstruction succeeds (token-id accumulator non-`None`,
decoding performed) exactly when the logits sequence has at least one
step; on a zero-step sequence the accumulator is still `None` and the
attempted decode fails. -/
theorem get_text_from_logits_nonempty {α : Type} [LinearOrderedField α] (exp log : α → α)
    (tokenizer : List ℕ → String) :
    (∀ L : List (List α), L ≠ [] →
        ∃ text nll ids, get_text_from_logits exp log L tokenizer = some (text, nll, ids)) ∧
      get_text_from_logits (α := α) exp log [] tokenizer = none := by
  refine ⟨?_, rfl⟩
  intro L hL
  exact ⟨_, _, _, get_text_closed_form exp log L tokenizer hL⟩

/-- Witness for C10: success on a concrete one-step sequence and failure on
the empty sequence over `ℚ`. -/
theorem get_text_from_logits_nonempty_witness :
    ((∀ L : List (List ℚ), L ≠ [] →
        ∃ text nll ids,
          get_text_from_logits (fun x => x) (fun x => x) L (fun _ => "t") =
            some (text, nll, ids)) ∧
      get_text_from_logits (α := ℚ) (fun x => x) (fun x => x) [] (fun _ => "t") = none) ∧
      (([[(5 : ℚ)]] : List (List ℚ)) ≠ []) :=
  ⟨get_text_from_logits_nonempty (fun x => x) (fun x => x) (fun _ => "t"), by decide⟩

/-!  Generic lemmas about `maxVal`, `argmaxIdx`, indicator rows and matrix
product entries, used by the vanishing-temperature analysis. -/

/-- `maxVal` is `none` exactly on the empty list. -/
theorem maxVal_eq_none_iff {α : Type} [LinearOrderedField α] (xs : List α) :
    maxVal xs = none ↔ xs = [] := by
  cases xs with
  | nil => simp [maxVal]
  | cons x t =>
    simp only [maxVal]
    cases maxVal t <;> simp

/-- The maximum of a list is one of its entries. -/
theorem maxVal_mem {α : Type} [LinearOrderedField α] (xs : List α) (m : α)
    (h : maxVal xs = some m) : m ∈ xs := by
  induction xs generalizing m with
  | nil => simp [maxVal] at h
  | cons x t ih =>
    simp only [maxVal] at h
    cases ht : maxVal t with
    | none =>
      rw [ht] at h
      simp only [Option.some.injEq] at h
      rw [← h]
      exact List.mem_cons_self x t
    | some mt =>
      rw [ht] at h
      simp only [Option.some.injEq] at h
      rw [← h]
      rcases max_choice x mt with hc | hc
      · rw [hc]; exact List.mem_cons_self x t
      · rw [hc]; exact List.mem_cons_of_mem x (ih mt ht)

/-- Every entry is at most the maximum. -/
theorem le_maxVal {α : Type} [LinearOrderedField α] (xs : List α) (x m : α)
    (hx : x ∈ xs) (h : maxVal xs = some m) : x ≤ m := by
  induction xs generalizing m with
  | nil => simp at hx
  | cons y t ih =>
    simp only [maxVal] at h
    cases ht : maxVal t with
    | none =>
      rw [ht] at h
      simp only [Option.some.injEq] at h
      have hte : t = [] := (maxVal_eq_none_iff t).mp ht
      subst hte
      simp only [List.mem_singleton] at hx
      subst hx
      exact le_of_eq h
    | some mt =>
      rw [ht] at h
      simp only [Option.some.injEq] at h
      rw [← h]
      rcases List.mem_cons.mp hx with rfl | hxt
      · exact le_max_left _ _
      · exact le_trans (ih mt hxt ht) (le_max_right _ _)

/-- A strictly unique maximum position is the `argmaxIdx`. -/
theorem argmaxIdx_eq_of_strict {α : Type} [LinearOrderedField α] (xs : List α) (t : ℕ)
    (ht : t < xs.length)
    (h : ∀ j, j < xs.length → j ≠ t → xs.getD j 0 < xs.getD t 0) :
    argmaxIdx xs = t := by
  induction xs generalizing t with
  | nil => simp at ht
  | cons x xs' ih =>
    cases t with
    | zero =>
      simp only [argmaxIdx]
      cases hm : maxVal xs' with
      | none => rfl
      | some m =>
        have hmem := maxVal_mem xs' m hm
        obtain ⟨j, hj, rfl⟩ := List.mem_iff_getElem.mp hmem
        have hlt : xs'[j] < x := by
          have hh := h (j + 1) (by simp; omega) (by omega)
          rw [List.getD_cons_succ, List.getD_cons_zero] at hh
          rwa [List.getD_eq_getElem _ _ hj] at hh
        show (if xs'[j] ≤ x then (0 : ℕ) else argmaxIdx xs' + 1) = 0
        rw [if_pos (le_of_lt hlt)]
    | succ t' =>
      have hlen' : t' < xs'.length := by simpa using ht
      have hx0 : x < xs'.getD t' 0 := by
        have hh := h 0 (by simp) (by simp)
        simpa [List.getD_cons_zero, List.getD_cons_succ] using hh
      have hne : xs' ≠ [] := by
        intro hnil
        rw [hnil] at hlen'
        simp at hlen'
      cases hm : maxVal xs' with
      | none => exact absurd ((maxVal_eq_none_iff xs').mp hm) hne
      | some m =>
        have hmm : xs'.getD t' 0 ∈ xs' := by
          rw [List.getD_eq_getElem _ _ hlen']
          exact List.getElem_mem _
        have hxm : x < m := lt_of_lt_of_le hx0 (le_maxVal xs' _ m hmm hm)
        simp only [argmaxIdx]
        rw [hm]
        show (if m ≤ x then (0 : ℕ) else argmaxIdx xs' + 1) = t' + 1
        rw [if_neg (not_le.mpr hxm)]
        congr 1
        apply ih t' hlen'
        intro j hj hjne
        have hh := h (j + 1) (by simp; omega) (by omega)
        simpa [List.getD_cons_succ] using hh

/-- A monotone map commutes with `maxVal`. -/
theorem maxVal_map_mono {α : Type} [LinearOrderedField α] (f : α → α) (hf : Monotone f)
    (xs : List α) : maxVal (xs.map f) = (maxVal xs).map f := by
  induction xs with
  | nil => simp [maxVal]
  | cons x t ih =>
    simp only [List.map_cons, maxVal, ih]
    cases maxVal t with
    | none => simp
    | some m => simp [Monotone.map_max hf]

/-- A strictly monotone map does not change the `argmaxIdx`. -/
theorem argmaxIdx_map_strictMono {α : Type} [LinearOrderedField α] (f : α → α)
    (hf : StrictMono f) (xs : List α) : argmaxIdx (xs.map f) = argmaxIdx xs := by
  induction xs with
  | nil => simp [argmaxIdx]
  | cons x t ih =>
    simp only [List.map_cons, argmaxIdx, maxVal_map_mono f hf.monotone]
    cases maxVal t with
    | none => simp
    | some m =>
      simp only [Option.map_some']
      by_cases hmx : m ≤ x
      · rw [if_pos hmx, if_pos (hf.le_iff_le.mpr hmx)]
      · rw [if_neg hmx, if_neg (fun hc => hmx (hf.le_iff_le.mp hc)), ih]

/-- Dividing every entry by a positive temperature does not change the
`argmaxIdx` (the source of top-1 invariance under temperature scaling). -/
theorem argmaxIdx_map_div {α : Type} [LinearOrderedField α] (xs : List α) (c : α)
    (hc : 0 < c) : argmaxIdx (xs.map (fun v => v / c)) = argmaxIdx xs :=
  argmaxIdx_map_strictMono _
    (fun _ _ hab => div_lt_div_of_pos_right hab hc) xs

/-- The indicator row has length `n`. -/
theorem indicatorRow_length {α : Type} [LinearOrderedField α] (n t : ℕ) :
    (indicatorRow (α := α) n t).length = n := by
  simp [indicatorRow]

/-- The indicator row is `1` at its index. -/
theorem indicatorRow_getD_self {α : Type} [LinearOrderedField α] (n t : ℕ) (ht : t < n) :
    (indicatorRow (α := α) n t).getD t 0 = 1 := by
  simp [indicatorRow, List.getD, List.getElem?_map, List.getElem?_range, ht]

/-- The indicator row is `0` away from its index. -/
theorem indicatorRow_getD_ne {α : Type} [LinearOrderedField α] (n t i : ℕ) (hi : i < n)
    (hne : i ≠ t) : (indicatorRow (α := α) n t).getD i 0 = 0 := by
  simp [indicatorRow, List.getD, List.getElem?_map, List.getElem?_range, hi, hne]

/-- Casting the Python `one_hot` output row of a 1-D prompt to the scalar
field gives the indicator rows of the prompt's tokens. -/
theorem castOneHot_eq_indicator {α : Type} [LinearOrderedField α] (prompt : List ℕ)
    (d : ℕ) :
    castRows (α := α) ((one_hot (IdTensor.vec prompt) d).headD []) =
      prompt.map (fun t => indicatorRow d t) := by
  show castRows (prompt.map (oneHotRow d)) = _
  unfold castRows
  rw [List.map_map]
  apply List.map_congr_left
  intro t _
  simp [oneHotRow, indicatorRow, Function.comp, apply_ite (Nat.cast : ℕ → α)]

/-- The dot product with column `k` as a finite sum over row indices. -/
theorem dotCol_eq_sum {α : Type} [LinearOrderedField α] (p : List α) (E : List (List α))
    (k : ℕ) (hlen : p.length = E.length) :
    dotCol p E k = ∑ j ∈ Finset.range E.length, p.getD j 0 * (E.getD j []).getD k 0 := by
  induction p generalizing E with
  | nil =>
    cases E with
    | nil => simp [dotCol]
    | cons r E' => simp at hlen
  | cons a p' ih =>
    cases E with
    | nil => simp at hlen
    | cons r E' =>
      have hlen' : p'.length = E'.length := by simpa using hlen
      show a * r.getD k 0 + dotCol p' E' k = _
      rw [ih E' hlen']
      simp only [List.length_cons]
      rw [Finset.sum_range_succ']
      simp only [List.getD_cons_zero, List.getD_cons_succ]
      exact add_comm _ _

/-- `rowMatMul` has one entry per column. -/
theorem rowMatMul_length {α : Type} [LinearOrderedField α] (p : List α)
    (E : List (List α)) : (rowMatMul p E).length = (E.headD []).length := by
  simp [rowMatMul]

/-- Entry `k` of `rowMatMul` is the dot product with column `k`. -/
theorem rowMatMul_getD {α : Type} [LinearOrderedField α] (p : List α) (E : List (List α))
    (k : ℕ) (hk : k < (E.headD []).length) :
    (rowMatMul p E).getD k 0 = dotCol p E k := by
  have h1 : k < (rowMatMul p E).length := by simpa [rowMatMul] using hk
  rw [List.getD_eq_getElem _ _ h1]
  simp [rowMatMul]

/-- Multiplying the indicator row into the table selects the table's row. -/
theorem rowMatMul_indicator {α : Type} [LinearOrderedField α] (E : List (List α))
    (m t : ℕ) (hE : ∀ r ∈ E, r.length = m) (ht : t < E.length) :
    rowMatMul (indicatorRow E.length t) E = E.getD t [] := by
  have hrt : E.getD t [] ∈ E := by
    rw [List.getD_eq_getElem _ _ ht]
    exact List.getElem_mem _
  have hrtl : (E.getD t []).length = m := hE _ hrt
  have hEne : E ≠ [] := by
    intro h
    rw [h] at ht
    simp at ht
  have hhead : (E.headD []).length = m := by
    cases E with
    | nil => exact absurd rfl hEne
    | cons r E' => exact hE r (List.mem_cons_self r E')
  apply List.ext_getElem
  · rw [rowMatMul_length, hhead, hrtl]
  · intro i h1 h2
    have him : i < m := by
      rw [rowMatMul_length, hhead] at h1
      exact h1
    rw [← List.getD_eq_getElem _ 0 h1, ← List.getD_eq_getElem _ 0 h2]
    rw [rowMatMul_getD _ _ i (by rw [hhead]; exact him)]
    rw [dotCol_eq_sum _ _ i (by simp [indicatorRow_length])]
    rw [Finset.sum_eq_single t]
    · rw [indicatorRow_getD_self _ t ht, one_mul]
    · intro j hj hjne
      rw [indicatorRow_getD_ne _ t j (Finset.mem_range.mp hj) hjne, zero_mul]
    · intro hnt
      exact absurd (Finset.mem_range.mpr ht) hnt

/-- A list's sum as a finite sum over its positions. -/
theorem list_sum_eq_finset_sum {α : Type} [LinearOrderedField α] (l : List α) :
    l.sum = ∑ j ∈ Finset.range l.length, l.getD j 0 := by
  induction l with
  | nil => simp
  | cons a t ih =>
    show a + t.sum = _
    simp only [List.length_cons]
    rw [Finset.sum_range_succ']
    simp [ih, add_comm]

/-- The softmax of a row has the row's length. -/
theorem softmax_length {α : Type} [LinearOrderedField α] (exp : α → α) (row : List α) :
    (softmax exp row).length = row.length := by
  simp [softmax]

/-- The denominator of a softmax over a non-empty row is positive. -/
theorem sumExp_pos {α : Type} [LinearOrderedField α] (exp : α → α) (row : List α)
    (hexp : ∀ x, 0 < exp x) (hrow : row ≠ []) : 0 < sumExp exp row := by
  refine List.sum_pos _ ?_ (by simpa using hrow)
  intro x hx
  obtain ⟨v, _, rfl⟩ := List.mem_map.1 hx
  exact hexp v

/-- Entry `k` of a softmax row. -/
theorem softmax_getD {α : Type} [LinearOrderedField α] (exp : α → α) (row : List α)
    (k : ℕ) (hk : k < row.length) :
    (softmax exp row).getD k 0 = exp (row.getD k 0) / sumExp exp row := by
  have h1 : k < (softmax exp row).length := by simpa [softmax] using hk
  rw [List.getD_eq_getElem _ _ h1, List.getD_eq_getElem _ _ hk]
  simp [softmax]

/-- Each exponential is at most the softmax denominator. -/
theorem exp_getD_le_sumExp {α : Type} [LinearOrderedField α] (exp : α → α) (row : List α)
    (t : ℕ) (ht : t < row.length) (hexp : ∀ x, 0 < exp x) :
    exp (row.getD t 0) ≤ sumExp exp row := by
  rw [List.getD_eq_getElem _ _ ht]
  refine List.single_le_sum ?_ _ (List.mem_map_of_mem exp (List.getElem_mem ht))
  intro x hx
  obtain ⟨v, _, rfl⟩ := List.mem_map.1 hx
  exact le_of_lt (hexp v)

/-- Softmax entries are nonnegative. -/
theorem softmax_getD_nonneg {α : Type} [LinearOrderedField α] (exp : α → α)
    (row : List α) (k : ℕ) (hexp : ∀ x, 0 < exp x) :
    0 ≤ (softmax exp row).getD k 0 := by
  rcases lt_or_le k (softmax exp row).length with hk | hk
  · have hkr : k < row.length := by
      rw [softmax_length] at hk
      exact hk
    rw [softmax_getD exp row k hkr]
    have hne : row ≠ [] := by
      intro h
      rw [h] at hkr
      simp at hkr
    exact le_of_lt (div_pos (hexp _) (sumExp_pos exp row hexp hne))
  · rw [List.getD_eq_default _ _ hk]

/-!  Convergence infrastructure for the vanishing-temperature limit. -/

/-- Entry `k` of a row divided elementwise by a temperature. -/
theorem getD_map_div {α : Type} [LinearOrderedField α] (l : List α) (τ : α) (k : ℕ)
    (hk : k < l.length) :
    (l.map (fun v => v / τ)).getD k 0 = l.getD k 0 / τ := by
  have h1 : k < (l.map (fun v => v / τ)).length := by simpa using hk
  rw [List.getD_eq_getElem _ _ h1, List.getD_eq_getElem _ _ hk]
  simp

/-- A constant family of rows converges to its value. -/
theorem TendstoRow_const (r : List ℝ) : TendstoRow (fun _ => r) r :=
  ⟨Eventually.of_forall (fun _ => rfl), fun _ => tendsto_const_nhds⟩

/-- Convergence of rows respects eventual equality. -/
theorem TendstoRow_congr {f g : ℝ → List ℝ} {L : List ℝ}
    (h : ∀ᶠ τ in 𝓝[>] (0 : ℝ), f τ = g τ) (hf : TendstoRow f L) : TendstoRow g L := by
  refine ⟨?_, fun k => ?_⟩
  · exact (h.and hf.1).mono fun τ hh => hh.1 ▸ hh.2
  · exact (hf.2 k).congr' (h.mono fun τ hh => by rw [hh])

/-- Appending one convergent row to a convergent list of rows. -/
theorem TendstoMat_append {G : ℝ → List (List ℝ)} {M : List (List ℝ)}
    {r : ℝ → List ℝ} {s : List ℝ} (hG : TendstoMat G M) (hr : TendstoRow r s) :
    TendstoMat (fun τ => G τ ++ [r τ]) (M ++ [s]) := by
  refine ⟨hG.1.mono fun τ h => by simp [h], fun k => ?_⟩
  rcases lt_trichotomy k M.length with hk | hk | hk
  · have hMk : (M ++ [s]).getD k [] = M.getD k [] := List.getD_append _ _ _ _ hk
    rw [hMk]
    refine TendstoRow_congr ?_ (hG.2 k)
    exact hG.1.mono fun τ h => (List.getD_append _ _ _ _ (by rw [h]; exact hk)).symm
  · subst hk
    have hMk : (M ++ [s]).getD M.length [] = s := by
      rw [List.getD_append_right _ _ _ _ (le_refl _)]
      simp
    rw [hMk]
    refine TendstoRow_congr ?_ hr
    refine hG.1.mono fun τ h => ?_
    rw [List.getD_append_right _ _ _ _ (le_of_eq h)]
    simp [h]
  · have hMk : (M ++ [s]).getD k [] = [] := by
      apply List.getD_eq_default
      simp
      omega
    rw [hMk]
    refine TendstoRow_congr ?_ (TendstoRow_const [])
    refine hG.1.mono fun τ h => ?_
    apply (List.getD_eq_default _ _ ?_).symm
    simp
    omega

/-- As the temperature vanishes, `exp (-d / τ)` vanishes for `d > 0`. -/
theorem tendsto_exp_neg_div_zero (d : ℝ) (hd : 0 < d) :
    Tendsto (fun τ : ℝ => Real.exp (-d / τ)) (𝓝[>] (0 : ℝ)) (𝓝 0) := by
  have h1 : Tendsto (fun τ : ℝ => -d * τ⁻¹) (𝓝[>] (0 : ℝ)) atBot :=
    Tendsto.const_mul_atTop_of_neg (by linarith) tendsto_inv_zero_atTop
  have h2 := Real.tendsto_exp_atBot.comp h1
  refine h2.congr fun τ => ?_
  simp [div_eq_mul_inv, Function.comp]

/-- Sharpening, off the maximum: if `g` converges to a row whose strict
maximum lies at `t`, then away from `t` the softmax entries of
`g τ / τ` vanish as `τ → 0⁺`. -/
theorem softmax_sharpen_ne (g : ℝ → List ℝ) (L : List ℝ) (t k : ℕ)
    (hconv : TendstoRow g L) (hsa : StrictArgmax L t) (hk : k < L.length)
    (hkt : k ≠ t) :
    Tendsto (fun τ => (softmax Real.exp ((g τ).map (fun v => v / τ))).getD k 0)
      (𝓝[>] (0 : ℝ)) (𝓝 0) := by
  obtain ⟨ht, hmax⟩ := hsa
  set a := L.getD k 0
  set b := L.getD t 0
  have hab : a < b := hmax k hk hkt
  set d := (b - a) / 2
  have hd : 0 < d := by simp only [d]; linarith
  have hdiff : Tendsto (fun τ => (g τ).getD k 0 - (g τ).getD t 0) (𝓝[>] (0 : ℝ))
      (𝓝 (a - b)) := (hconv.2 k).sub (hconv.2 t)
  have hev : ∀ᶠ τ in 𝓝[>] (0 : ℝ), (g τ).getD k 0 - (g τ).getD t 0 < -d :=
    hdiff.eventually_lt_const (by simp only [d]; linarith)
  have hpos : ∀ᶠ τ in 𝓝[>] (0 : ℝ), 0 < τ := eventually_mem_nhdsWithin
  refine squeeze_zero' ?_ ?_ (tendsto_exp_neg_div_zero d hd)
  · exact Eventually.of_forall fun τ =>
      softmax_getD_nonneg Real.exp _ k (fun x => Real.exp_pos x)
  · refine ((hconv.1.and hev).and hpos).mono fun τ hh => ?_
    obtain ⟨⟨hlen, hlt⟩, hτ⟩ := hh
    have hkg : k < (g τ).length := by rw [hlen]; exact hk
    have htg : t < (g τ).length := by rw [hlen]; exact ht
    have hkrow : k < ((g τ).map (fun v => v / τ)).length := by simpa using hkg
    have htrow : t < ((g τ).map (fun v => v / τ)).length := by simpa using htg
    rw [softmax_getD _ _ k (by simpa using hkg), getD_map_div _ _ k hkg]
    have hS : Real.exp (((g τ).map (fun v => v / τ)).getD t 0) ≤
        sumExp Real.exp ((g τ).map (fun v => v / τ)) :=
      exp_getD_le_sumExp _ _ t htrow (fun x => Real.exp_pos x)
    rw [getD_map_div _ _ t htg] at hS
    calc Real.exp ((g τ).getD k 0 / τ) / sumExp Real.exp ((g τ).map (fun v => v / τ))
        ≤ Real.exp ((g τ).getD k 0 / τ) / Real.exp ((g τ).getD t 0 / τ) :=
          div_le_div_of_nonneg_left (le_of_lt (Real.exp_pos _)) (Real.exp_pos _) hS
      _ = Real.exp (((g τ).getD k 0 - (g τ).getD t 0) / τ) := by
          rw [← Real.exp_sub, div_sub_div_same]
      _ ≤ Real.exp (-d / τ) := by
          apply Real.exp_le_exp.mpr
          exact div_le_div_of_nonneg_right (le_of_lt hlt) (le_of_lt hτ)

/-- Sharpening: if `g` converges to a row whose strict maximum lies at `t`,
the softmax of `g τ / τ` converges to the indicator row at `t` as
`τ → 0⁺` — a near-degenerate softmax approaches a one-hot selection. -/
theorem softmax_sharpen (g : ℝ → List ℝ) (L : List ℝ) (t : ℕ)
    (hconv : TendstoRow g L) (hsa : StrictArgmax L t) :
    TendstoRow (fun τ => softmax Real.exp ((g τ).map (fun v => v / τ)))
      (indicatorRow L.length t) := by
  obtain ⟨ht, hmax⟩ := hsa
  constructor
  · refine hconv.1.mono fun τ h => ?_
    rw [softmax_length, List.length_map, h, indicatorRow_length]
  · intro k
    rcases lt_or_le k L.length with hk | hk
    · rcases eq_or_ne k t with rfl | hkt
      · -- the maximum entry tends to 1
        rw [indicatorRow_getD_self _ _ ht]
        have hothers : Tendsto
            (fun τ => ∑ j ∈ (Finset.range L.length).erase k,
              (softmax Real.exp ((g τ).map (fun v => v / τ))).getD j 0)
            (𝓝[>] (0 : ℝ)) (𝓝 0) := by
          have hsum := tendsto_finset_sum ((Finset.range L.length).erase k)
            (fun j hj => softmax_sharpen_ne g L k j hconv ⟨ht, hmax⟩
              (Finset.mem_range.mp (Finset.mem_of_mem_erase hj))
              (Finset.ne_of_mem_erase hj))
          simpa using hsum
        have h1 : Tendsto
            (fun τ => 1 - ∑ j ∈ (Finset.range L.length).erase k,
              (softmax Real.exp ((g τ).map (fun v => v / τ))).getD j 0)
            (𝓝[>] (0 : ℝ)) (𝓝 1) := by
          have hsub := (tendsto_const_nhds (x := (1 : ℝ))
            (f := 𝓝[>] (0 : ℝ))).sub hothers
          simpa using hsub
        refine h1.congr' ?_
        refine hconv.1.mono fun τ hlen => ?_
        have hrowne : (g τ).map (fun v => v / τ) ≠ [] := by
          intro hnil
          have : (g τ).length = 0 := by simpa using congrArg List.length hnil
          omega
        have htotal : (softmax Real.exp ((g τ).map (fun v => v / τ))).sum = 1 :=
          softmax_sum_one _ _ (fun x => Real.exp_pos x) hrowne
        rw [list_sum_eq_finset_sum] at htotal
        have hslen : (softmax Real.exp ((g τ).map (fun v => v / τ))).length =
            L.length := by
          rw [softmax_length, List.length_map, hlen]
        rw [hslen] at htotal
        have hsplit := Finset.add_sum_erase (Finset.range L.length)
          (fun j => (softmax Real.exp ((g τ).map (fun v => v / τ))).getD j 0)
          (Finset.mem_range.mpr ht)
        have hsplit2 : (softmax Real.exp ((g τ).map (fun v => v / τ))).getD k 0 +
            ∑ x ∈ (Finset.range L.length).erase k,
              (softmax Real.exp ((g τ).map (fun v => v / τ))).getD x 0 = 1 := by
          rw [← htotal]
          exact hsplit
        show 1 - (∑ j ∈ (Finset.range L.length).erase k,
            (softmax Real.exp ((g τ).map (fun v => v / τ))).getD j 0) =
          (softmax Real.exp ((g τ).map (fun v => v / τ))).getD k 0
        linarith [hsplit2]
      · rw [indicatorRow_getD_ne _ t k hk hkt]
        exact softmax_sharpen_ne g L t k hconv ⟨ht, hmax⟩ hk hkt
    · have hind : (indicatorRow (α := ℝ) L.length t).getD k 0 = 0 :=
        List.getD_eq_default _ _ (by rw [indicatorRow_length]; exact hk)
      rw [hind]
      have hz : Tendsto (fun _ : ℝ => (0 : ℝ)) (𝓝[>] (0 : ℝ)) (𝓝 0) :=
        tendsto_const_nhds
      refine hz.congr' ?_
      refine hconv.1.mono fun τ hlen => ?_
      refine (List.getD_eq_default _ _ ?_).symm
      rw [softmax_length, List.length_map, hlen]
      exact hk

/-- Eventual agreement of the argmax with the limit's strict maximum. -/
theorem argmax_eventually (g : ℝ → List ℝ) (L : List ℝ) (t : ℕ)
    (hconv : TendstoRow g L) (hsa : StrictArgmax L t) :
    ∀ᶠ τ in 𝓝[>] (0 : ℝ), argmaxIdx (g τ) = t := by
  obtain ⟨ht, hmax⟩ := hsa
  have hall : ∀ᶠ τ in 𝓝[>] (0 : ℝ), ∀ j ∈ Finset.range L.length,
      j ≠ t → (g τ).getD j 0 < (g τ).getD t 0 := by
    rw [eventually_all_finset]
    intro j hj
    rcases eq_or_ne j t with rfl | hne
    · exact Eventually.of_forall fun τ hne' => absurd rfl hne'
    · exact ((hconv.2 j).eventually_lt (hconv.2 t)
        (hmax j (Finset.mem_range.mp hj) hne)).mono fun τ h _ => h
  refine (hconv.1.and hall).mono fun τ hh => ?_
  obtain ⟨hl, hlt⟩ := hh
  refine argmaxIdx_eq_of_strict (g τ) t (by rw [hl]; exact ht) ?_
  intro j hjl hjne
  exact hlt j (Finset.mem_range.mpr (by rw [← hl]; exact hjl)) hjne

/-!  Glue: the decoding loops over `modelOfNet` / `idModelOfNet` compute the
`softEmb` / `softStored` / `hardRaw` recurrences. -/

/-- Entry `k` of a mapped list, for `k` in range. -/
theorem getD_map_of_lt {β γ : Type} (f : β → γ) (l : List β) (d : γ) (k : ℕ)
    (hk : k < l.length) : (l.map f).getD k d = f (l.get ⟨k, hk⟩) := by
  rw [List.getD_eq_getElem _ _ (by simpa using hk)]
  simp

/-- Under `modelOfNet`, the soft-decoding step recurrence is `softEmb` paired
with `softStored`. -/
theorem softStepSpec_modelOfNet {α : Type} [LinearOrderedField α] (exp : α → α)
    (net : List (List α) → List (List α)) (E oneHot : List (List α)) (τ : α) (i : ℕ) :
    softStepSpec exp (modelOfNet net) E oneHot τ i =
      (softEmb exp net E oneHot τ i, softStored exp net E oneHot τ i) := by
  induction i with
  | zero => rfl
  | succ k ih =>
    simp only [softStepSpec, ih]
    simp [modelOfNet, softEmb, softStored, embed_inputs]

/-- Under `idModelOfNet`, each arg-max step appends the top-1 token of
`hardRaw`. -/
theorem argmaxIdsSpec_idModelOfNet_succ {α : Type} [LinearOrderedField α]
    (net : List (List α) → List (List α)) (E : List (List α)) (prompt : List ℕ)
    (i : ℕ) :
    argmaxIdsSpec (idModelOfNet net E) prompt (i + 1) =
      argmaxIdsSpec (idModelOfNet net E) prompt i ++
        [argmaxIdx (hardRaw net E prompt i)] :=
  rfl

/-- The indicator row has its strict maximum at its index. -/
theorem strictArgmax_indicator {α : Type} [LinearOrderedField α] (n t : ℕ) (ht : t < n) :
    StrictArgmax (indicatorRow (α := α) n t) t := by
  refine ⟨by rw [indicatorRow_length]; exact ht, fun j hj hne => ?_⟩
  rw [indicatorRow_length] at hj
  rw [indicatorRow_getD_ne _ _ _ hj hne, indicatorRow_getD_self _ _ ht]
  exact zero_lt_one

/-- Build `TendstoMat` from convergence of the rows in range. -/
theorem TendstoMat_mk (G : ℝ → List (List ℝ)) (M : List (List ℝ))
    (hlen : ∀ᶠ τ in 𝓝[>] (0 : ℝ), (G τ).length = M.length)
    (hrow : ∀ k, k < M.length →
      TendstoRow (fun τ => (G τ).getD k []) (M.getD k [])) :
    TendstoMat G M := by
  refine ⟨hlen, fun k => ?_⟩
  rcases lt_or_le k M.length with hk | hk
  · exact hrow k hk
  · have hM : M.getD k [] = [] := List.getD_eq_default _ _ hk
    rw [hM]
    refine TendstoRow_congr ?_ (TendstoRow_const [])
    refine hlen.mono fun τ h => ?_
    exact (List.getD_eq_default _ _ (by rw [h]; exact hk)).symm

/-- Convergence of the matrix product in its probability row, with the
embedding table fixed. -/
theorem TendstoRow_rowMatMul (p : ℝ → List ℝ) (q : List ℝ) (E : List (List ℝ))
    (hp : TendstoRow p q) (hq : q.length = E.length) :
    TendstoRow (fun τ => rowMatMul (p τ) E) (rowMatMul q E) := by
  constructor
  · exact Eventually.of_forall fun τ => by rw [rowMatMul_length, rowMatMul_length]
  · intro k
    rcases lt_or_le k (E.headD []).length with hk | hk
    · rw [rowMatMul_getD _ _ _ hk, dotCol_eq_sum _ _ _ hq]
      have hev : ∀ᶠ τ in 𝓝[>] (0 : ℝ), (rowMatMul (p τ) E).getD k 0 =
          ∑ j ∈ Finset.range E.length, (p τ).getD j 0 * (E.getD j []).getD k 0 := by
        refine hp.1.mono fun τ h => ?_
        rw [rowMatMul_getD _ _ _ hk, dotCol_eq_sum _ _ _ (by rw [h, hq])]
      refine Tendsto.congr' (hev.mono fun τ h => h.symm) ?_
      refine tendsto_finset_sum _ fun j _ => ?_
      exact (hp.2 j).mul_const _
    · have h2 : (rowMatMul q E).getD k 0 = 0 :=
        List.getD_eq_default _ _ (by rw [rowMatMul_length]; exact hk)
      rw [h2]
      refine Tendsto.congr (fun τ => ?_) tendsto_const_nhds
      exact (List.getD_eq_default _ _ (by rw [rowMatMul_length]; exact hk)).symm

/-- Main induction: the embedded input sequence of soft decoding converges,
as the temperature vanishes, to the true embedding sequence of the
token ids chosen by arg-max decoding. -/
theorem softEmb_tendsto (net : List (List ℝ) → List (List ℝ)) (E : List (List ℝ))
    (m : ℕ) (prompt : List ℕ) (hcont : NetContinuous net)
    (hE : ∀ r ∈ E, r.length = m) (hpl : ∀ t ∈ prompt, t < E.length) :
    ∀ i : ℕ, (∀ j, j < i → (hardRaw net E prompt j).length = E.length) →
      (∀ j, j < i → ∃ t, StrictArgmax (hardRaw net E prompt j) t) →
      TendstoMat
        (fun τ => softEmb Real.exp net E
          (prompt.map (fun t => indicatorRow E.length t)) τ i)
        ((argmaxIdsSpec (idModelOfNet net E) prompt i).map (embedRowOfId E)) := by
  intro i
  induction i with
  | zero =>
    intro _ _
    apply TendstoMat_mk
    · refine Eventually.of_forall fun τ => ?_
      show (embed_inputs Real.exp E _).length = _
      simp [embed_inputs, argmaxIdsSpec]
    · intro k hk
      have hkp : k < prompt.length := by
        have : (argmaxIdsSpec (idModelOfNet net E) prompt 0) = prompt := rfl
        rw [this] at hk
        simpa using hk
      have htmem : prompt.get ⟨k, hkp⟩ ∈ prompt := List.get_mem prompt _ hkp
      have htV : prompt.get ⟨k, hkp⟩ < E.length := hpl _ htmem
      have hsa := strictArgmax_indicator (α := ℝ) E.length (prompt.get ⟨k, hkp⟩) htV
      have hsh := softmax_sharpen (fun _ => indicatorRow E.length (prompt.get ⟨k, hkp⟩))
        (indicatorRow E.length (prompt.get ⟨k, hkp⟩)) (prompt.get ⟨k, hkp⟩)
        (TendstoRow_const _) hsa
      rw [indicatorRow_length] at hsh
      have hrow := TendstoRow_rowMatMul _ _ E hsh (indicatorRow_length _ _)
      rw [rowMatMul_indicator E m _ hE htV] at hrow
      have hMrow : ((argmaxIdsSpec (idModelOfNet net E) prompt 0).map
          (embedRowOfId E)).getD k [] = embedRowOfId E (prompt.get ⟨k, hkp⟩) := by
        show (prompt.map (embedRowOfId E)).getD k [] = _
        rw [getD_map_of_lt _ _ _ _ hkp]
      rw [hMrow]
      refine TendstoRow_congr (Eventually.of_forall fun τ => ?_) hrow
      show rowMatMul (softmax Real.exp
          ((indicatorRow E.length (prompt.get ⟨k, hkp⟩)).map (fun v => v / τ))) E =
        (((prompt.map (fun t => indicatorRow E.length t)).map
            (fun r => r.map (fun v => v / τ))).map
          (fun row => rowMatMul (softmax Real.exp row) E)).getD k []
      rw [List.map_map, List.map_map]
      rw [getD_map_of_lt _ _ _ _ hkp]
      rfl
  | succ i ih =>
    intro hvocab huniq
    have hvoc' : ∀ j, j < i → (hardRaw net E prompt j).length = E.length :=
      fun j hj => hvocab j (Nat.lt_succ_of_lt hj)
    have hun' : ∀ j, j < i → ∃ t, StrictArgmax (hardRaw net E prompt j) t :=
      fun j hj => huniq j (Nat.lt_succ_of_lt hj)
    have hTM := ih hvoc' hun'
    have hR : TendstoRow
        (fun τ => lastRow (net (softEmb Real.exp net E
          (prompt.map (fun t => indicatorRow E.length t)) τ i)))
        (hardRaw net E prompt i) := hcont _ _ hTM
    obtain ⟨t, hsa⟩ := huniq i (Nat.lt_succ_self i)
    have ht_eq : argmaxIdx (hardRaw net E prompt i) = t :=
      argmaxIdx_eq_of_strict _ _ hsa.1 hsa.2
    have hsh := softmax_sharpen _ _ t hR hsa
    rw [hvocab i (Nat.lt_succ_self i)] at hsh
    have hrow := TendstoRow_rowMatMul _ _ E hsh (indicatorRow_length _ _)
    have htE : t < E.length := by
      have h1 := hsa.1
      rw [hvocab i (Nat.lt_succ_self i)] at h1
      exact h1
    rw [rowMatMul_indicator E m t hE htE] at hrow
    have happ := TendstoMat_append hTM hrow
    have hM : (argmaxIdsSpec (idModelOfNet net E) prompt (i + 1)).map
        (embedRowOfId E) =
        (argmaxIdsSpec (idModelOfNet net E) prompt i).map (embedRowOfId E) ++
          [embedRowOfId E t] := by
      rw [argmaxIdsSpec_idModelOfNet_succ, List.map_append, ht_eq]
      rfl
    rw [hM]
    exact happ

/-- Eventually, the token chosen at step `i` of soft decoding agrees with the
token chosen at step `i` of arg-max decoding. -/
theorem softToken_eventually (net : List (List ℝ) → List (List ℝ))
    (E : List (List ℝ)) (m : ℕ) (prompt : List ℕ) (hcont : NetContinuous net)
    (hE : ∀ r ∈ E, r.length = m) (hpl : ∀ t ∈ prompt, t < E.length) (i : ℕ)
    (hvocab : ∀ j, j < i → (hardRaw net E prompt j).length = E.length)
    (huniq : ∀ j, j < i → ∃ t, StrictArgmax (hardRaw net E prompt j) t)
    (huniqi : ∃ t, StrictArgmax (hardRaw net E prompt i) t) :
    ∀ᶠ τ in 𝓝[>] (0 : ℝ),
      argmaxIdx (softStored Real.exp net E
        (prompt.map (fun t => indicatorRow E.length t)) τ i) =
      argmaxIdx (hardRaw net E prompt i) := by
  obtain ⟨t, hsa⟩ := huniqi
  have hTM := softEmb_tendsto net E m prompt hcont hE hpl i hvocab huniq
  have hR : TendstoRow
      (fun τ => lastRow (net (softEmb Real.exp net E
        (prompt.map (fun t => indicatorRow E.length t)) τ i)))
      (hardRaw net E prompt i) := hcont _ _ hTM
  have hev := argmax_eventually _ _ t hR hsa
  have htt : argmaxIdx (hardRaw net E prompt i) = t :=
    argmaxIdx_eq_of_strict _ _ hsa.1 hsa.2
  refine (hev.and eventually_mem_nhdsWithin).mono fun τ hh => ?_
  obtain ⟨h1, h2⟩ := hh
  show argmaxIdx ((lastRow (net (softEmb Real.exp net E
      (prompt.map (fun t => indicatorRow E.length t)) τ i))).map (fun v => v / τ)) = _
  rw [argmaxIdx_map_div _ _ h2, h1, htt]

/-- C7: over any continuous network interpretation of the model, with the
arg-max decoder's per-step logits having strictly unique maxima, there
is a positive temperature threshold below which the tokens chosen by
soft (embedding-weighted) decoding are exactly the tokens chosen by
arg-max decoding for the same prompt and length. -/
theorem soft_decoding_limit_equals_argmax (net : List (List ℝ) → List (List ℝ))
    (E : List (List ℝ)) (m : ℕ) (prompt : List ℕ) (n : ℕ)
    (hcont : NetContinuous net) (hE : ∀ r ∈ E, r.length = m)
    (hpl : ∀ t ∈ prompt, t < E.length)
    (hvocab : ∀ i, i < n → (hardRaw net E prompt i).length = E.length)
    (huniq : ∀ i, i < n → ∃ t, StrictArgmax (hardRaw net E prompt i) t) :
    ∃ τ₀ : ℝ, 0 < τ₀ ∧ ∀ τ : ℝ, 0 < τ → τ < τ₀ →
      (decode_with_embeddings Real.exp (modelOfNet net) E n
          (castRows ((one_hot (IdTensor.vec prompt) E.length).headD [])) τ).map
        argmaxIdx =
      (decode_with_argmax (idModelOfNet net E) n prompt).map argmaxIdx := by
  have hev : ∀ᶠ τ in 𝓝[>] (0 : ℝ), ∀ i ∈ Finset.range n,
      argmaxIdx (softStored Real.exp net E
        (prompt.map (fun t => indicatorRow E.length t)) τ i) =
      argmaxIdx (hardRaw net E prompt i) := by
    rw [eventually_all_finset]
    intro i hi
    have hin : i < n := Finset.mem_range.mp hi
    exact softToken_eventually net E m prompt hcont hE hpl i
      (fun j hj => hvocab j (lt_trans hj hin))
      (fun j hj => huniq j (lt_trans hj hin)) (huniq i hin)
  have hev2 : ∀ᶠ τ in 𝓝[>] (0 : ℝ),
      (decode_with_embeddings Real.exp (modelOfNet net) E n
          (castRows ((one_hot (IdTensor.vec prompt) E.length).headD [])) τ).map
        argmaxIdx =
      (decode_with_argmax (idModelOfNet net E) n prompt).map argmaxIdx := by
    refine hev.mono fun τ h1 => ?_
    rw [castOneHot_eq_indicator, decodeEmb_trace, List.map_map]
    show _ = ((decodeArgStep (idModelOfNet net E))^[n] (prompt, [])).2.map argmaxIdx
    rw [decodeArg_iterate_spec, List.map_map]
    apply List.map_congr_left
    intro i hi
    have hii : i < n := List.mem_range.mp hi
    show argmaxIdx ((softStepSpec Real.exp (modelOfNet net) E
        (prompt.map (fun t => indicatorRow E.length t)) τ i).2) = _
    rw [softStepSpec_modelOfNet]
    exact h1 i (Finset.mem_range.mpr hii)
  obtain ⟨u, hu, hsub⟩ := mem_nhdsWithin_Ioi_iff_exists_Ioo_subset.mp hev2
  exact ⟨u, Set.mem_Ioi.mp hu, fun τ h1 h2 => hsub ⟨h1, h2⟩⟩

/-- Witness for C7: a constant two-token network over a one-token prompt. -/
theorem soft_decoding_limit_equals_argmax_witness :
    (NetContinuous (fun _ => [[(0 : ℝ), 1]]) ∧
        (∀ r ∈ ([[(10 : ℝ)], [20]] : List (List ℝ)), r.length = 1) ∧
        (∀ t ∈ ([1] : List ℕ), t < ([[(10 : ℝ)], [20]] : List (List ℝ)).length) ∧
        (∀ i, i < 1 →
          (hardRaw (fun _ => [[(0 : ℝ), 1]]) [[10], [20]] [1] i).length =
            ([[(10 : ℝ)], [20]] : List (List ℝ)).length) ∧
        (∀ i, i < 1 →
          ∃ t, StrictArgmax (hardRaw (fun _ => [[(0 : ℝ), 1]]) [[10], [20]] [1] i) t)) ∧
      (∃ τ₀ : ℝ, 0 < τ₀ ∧ ∀ τ : ℝ, 0 < τ → τ < τ₀ →
        (decode_with_embeddings Real.exp (modelOfNet (fun _ => [[(0 : ℝ), 1]]))
            [[10], [20]] 1
            (castRows ((one_hot (IdTensor.vec [1])
              ([[(10 : ℝ)], [20]] : List (List ℝ)).length).headD [])) τ).map
          argmaxIdx =
        (decode_with_argmax (idModelOfNet (fun _ => [[(0 : ℝ), 1]]) [[10], [20]])
          1 [1]).map argmaxIdx) := by
  have h1 : NetContinuous (fun _ => [[(0 : ℝ), 1]]) :=
    fun G M _ => TendstoRow_const [0, 1]
  have h2 : ∀ r ∈ ([[(10 : ℝ)], [20]] : List (List ℝ)), r.length = 1 := by
    intro r hr
    rcases List.mem_cons.mp hr with rfl | hr2
    · rfl
    · rcases List.mem_singleton.mp hr2 with rfl
      rfl
  have h3 : ∀ t ∈ ([1] : List ℕ), t < ([[(10 : ℝ)], [20]] : List (List ℝ)).length := by
    intro t ht
    rcases List.mem_singleton.mp ht with rfl
    decide
  have h4 : ∀ i, i < 1 →
      (hardRaw (fun _ => [[(0 : ℝ), 1]]) [[10], [20]] [1] i).length =
        ([[(10 : ℝ)], [20]] : List (List ℝ)).length :=
    fun i _ => rfl
  have h5 : ∀ i, i < 1 →
      ∃ t, StrictArgmax (hardRaw (fun _ => [[(0 : ℝ), 1]]) [[10], [20]] [1] i) t := by
    intro i _
    refine ⟨1, by norm_num [hardRaw, lastRow], ?_⟩
    intro j hj hne
    have hj2 : j < 2 := by
      simpa [hardRaw, lastRow] using hj
    interval_cases j
    · norm_num [hardRaw, lastRow]
    · exact absurd rfl hne
  exact ⟨⟨h1, h2, h3, h4, h5⟩,
    soft_decoding_limit_equals_argmax (fun _ => [[(0 : ℝ), 1]]) [[10], [20]] 1 [1] 1
      h1 h2 h3 h4 h5⟩

end GptPlayground
